import Mathlib

/-!
Verification development for the `sphinx_docstring_typing` extension.

The extension rewrites PEP-484 style type annotations appearing in docstring
lines into Sphinx cross-reference markup.  The model below is a shallow
embedding of `src/sphinx_docstring_typing/__init__.py`:

* the two vocabulary sets `_TYPES` and `_BARE_TYPES` and the regexes
  `TYPE_RE` / `BARE_TYPE_RE` built from them,
* the expression trees produced by the host parser for the annotation
  grammar, the `CollapseAttrsVisitor` and `RedocVisitor` tree walks,
* `transform`, and the per-line orchestrator `autodoc_process_docstring`.

Python exceptions (`SyntaxError` from parsing, `AttributeError` from the
visitors) are modelled by `Option`: `none` marks a raised exception.
-/

namespace SDT

/-- The names exported by the host `typing` module (`typing.__all__`, CPython
3.6 era, the interpreters this 2016 extension targets).  The source consults
the module both through `typing.__all__` (to build `_TYPES`, this list) and
through `hasattr(typing, name)` (in `RedocVisitor.visit_Name`, modelled by
`typingAttrs` below: this list plus the module's non-exported attributes). -/
def typingAll : List String :=
  ["Any", "Callable", "ClassVar", "Generic", "Optional", "Tuple", "Type",
   "TypeVar", "Union",
   "AbstractSet", "GenericMeta", "ByteString", "Container", "ContextManager",
   "Hashable", "ItemsView", "Iterable", "Iterator", "KeysView", "Mapping",
   "MappingView", "MutableMapping", "MutableSequence", "MutableSet",
   "Sequence", "Sized", "ValuesView", "Awaitable", "AsyncIterator",
   "AsyncIterable", "Coroutine", "Collection", "AsyncGenerator",
   "AsyncContextManager",
   "Reversible", "SupportsAbs", "SupportsBytes", "SupportsComplex",
   "SupportsFloat", "SupportsInt", "SupportsRound",
   "Counter", "Deque", "Dict", "DefaultDict", "List", "Set", "FrozenSet",
   "NamedTuple", "Generator",
   "AnyStr", "cast", "get_type_hints", "NewType", "no_type_check",
   "no_type_check_decorator", "NoReturn", "overload",
   "Text", "TYPE_CHECKING"]

/-- The exclusion set subtracted from `typing.__all__` when building `_TYPES`
(source line 25-27). -/
def typesExcluded : List String :=
  ["cast", "get_type_hints", "NewType", "no_type_check",
   "no_type_check_decorator", "overload", "TYPE_CHECKING"]

/-- `_TYPES = set(typing.__all__) - set((...))`: the recognized type-hint
names whose alternation forms `TYPE_RE`.  (The regex alternation order is
immaterial for `TYPE_RE`: a name alternative can only complete a match when
it is immediately followed by `[`, and no recognized name contains `[`, so at
most one alternative can succeed at a given position.) -/
def TYPES : List String := typingAll.filter (fun n => ¬ n ∈ typesExcluded)

/-- `_BARE_TYPES`: the tuple of bare type-hint names, in source order (the
order matters for `BARE_TYPE_RE`: `Any` precedes `AnyStr`). -/
def BARE_TYPES : List String :=
  ["Any", "Text", "Hashable", "Sized", "ByteString", "AnyStr"]

/-- The attributes the `typing` module carries beyond `typing.__all__`
(CPython 3.6 `typing.py`): the names bound by its import block (`import
abc`, `from abc import abstractmethod, abstractproperty`, `import
collections`, `import collections.abc as collections_abc`, `import
contextlib`, `import functools`, `import re as stdlib_re`, `import sys`,
`import types`), the module-level classes and aliases that are not
exported (`TypingMeta`, `TupleMeta`, `CallableMeta`, `NamedTupleMeta`,
`IO`, `TextIO`, `BinaryIO`, `Pattern`, `Match`, and the `io` / `re`
wrapper namespaces), the module-level type variables (`T`, `KT`, `VT`,
`T_co`, `V_co`, `VT_co`, `T_contra`, `CT_co`), and the module dunders.
(Underscore-prefixed internals are module attributes too, but no
identifier of the annotation grammar that reaches `visit_Name` in the
claims coincides with one, and they follow the same pattern as the names
listed here.) -/
def typingExtraAttrs : List String :=
  ["abc", "abstractmethod", "abstractproperty", "collections",
   "collections_abc", "contextlib", "functools", "stdlib_re", "sys",
   "types",
   "TypingMeta", "TupleMeta", "CallableMeta", "NamedTupleMeta",
   "IO", "TextIO", "BinaryIO", "Pattern", "Match", "io", "re",
   "T", "KT", "VT", "T_co", "V_co", "VT_co", "T_contra", "CT_co",
   "__name__", "__doc__", "__package__", "__loader__", "__spec__",
   "__file__", "__cached__", "__builtins__", "__all__"]

/-- The attribute set of the `typing` module: the exported names together
with the non-exported module attributes. -/
def typingAttrs : List String := typingAll ++ typingExtraAttrs

/-- `hasattr(typing, n)`, as consulted by `RedocVisitor.visit_Name`:
membership in the module's attribute set, which is strictly larger than
`typing.__all__`. -/
def hasattrTyping (n : String) : Bool := decide (n ∈ typingAttrs)

/-- The backquote character, which appears in the emitted markup and in the
`BARE_TYPE_RE` lookahead. -/
def backquote : Char := Char.ofNat 96

/-- The markup emitted by `RedocVisitor.visit_Name` for an identifier. -/
def renderName (n : String) : String :=
  ":py:obj:" ++ String.mk [backquote]
    ++ (if hasattrTyping n then "~typing." ++ n else n)
    ++ String.mk [backquote]

/-- Expression trees for the annotation grammar, mirroring the `ast` nodes
that the pipeline handles: `Name`, `Attribute`, `Subscript` (whose slice is
an `Index` wrapper, as produced by the pre-3.9 parser), `Tuple`, `Ellipsis`,
and the unary `~` marker (`UnaryOp(Invert, operand)`). -/
inductive PyAst : Type
  | Name (id : String)
  | Attribute (value : PyAst) (attr : String)
  | Subscript (value : PyAst) (slice : PyAst)
  | Index (value : PyAst)
  | Tuple (elts : List PyAst)
  | Ellipsis
  | Invert (operand : PyAst)
deriving Repr

mutual

/-- `CollapseAttrsVisitor`, a `NodeTransformer`: on an `Attribute` node it
first collapses the child (`child = self.visit(node.value)`, children before
parents), then reads `child.attr if isinstance(child, ast.Attribute) else
child.id` and returns `Name(id=parent_attr + '.' + node.attr)`.  Reading
`.id` from a node that has no such field raises `AttributeError`, modelled
as `none`.  All other node kinds are handled by `generic_visit`, which
rebuilds the node from its collapsed children. -/
def collapseAttrs : PyAst → Option PyAst
  | .Name i => some (.Name i)
  | .Attribute v a =>
    match collapseAttrs v with
    | none => none
    | some child =>
      match child with
      | .Attribute _ pa => some (.Name (pa ++ "." ++ a))
      | .Name i => some (.Name (i ++ "." ++ a))
      | _ => none
  | .Subscript v s =>
    match collapseAttrs v, collapseAttrs s with
    | some v', some s' => some (.Subscript v' s')
    | _, _ => none
  | .Index v =>
    match collapseAttrs v with
    | some v' => some (.Index v')
    | none => none
  | .Tuple es =>
    match collapseList es with
    | some es' => some (.Tuple es')
    | none => none
  | .Ellipsis => some .Ellipsis
  | .Invert o =>
    match collapseAttrs o with
    | some o' => some (.Invert o')
    | none => none

/-- `generic_visit` over the element list of a `Tuple` node. -/
def collapseList : List PyAst → Option (List PyAst)
  | [] => some []
  | e :: es =>
    match collapseAttrs e, collapseList es with
    | some e', some es' => some (e' :: es')
    | _, _ => none

end

mutual

/-- `RedocVisitor`: walks the tree accumulating the output string.
`visit_Subscript` visits value then slice; `visit_Index` wraps its child in
`' [ '` / `' ] '`; `visit_Tuple` joins elements with `', '`; `visit_Name`
emits `renderName`; `visit_Attribute` renders the value then `'.attr'`;
`visit_UnaryOp` on `Invert` prepends `'~'` to `operand.id` and re-dispatches
(an `AttributeError`, i.e. `none`, when the operand is not a `Name`);
`visit_Ellipsis` emits `'...'`. -/
def redoc : PyAst → Option String
  | .Name i => some (renderName i)
  | .Attribute v a =>
    match redoc v with
    | some r => some (r ++ "." ++ a)
    | none => none
  | .Subscript v s =>
    match redoc v, redoc s with
    | some rv, some rs => some (rv ++ rs)
    | _, _ => none
  | .Index v =>
    match redoc v with
    | some r => some (" [ " ++ r ++ " ] ")
    | none => none
  | .Tuple es =>
    match redocList es with
    | some rs => some (String.intercalate ", " rs)
    | none => none
  | .Ellipsis => some "..."
  | .Invert o =>
    match o with
    | .Name i => some (renderName ("~" ++ i))
    | _ => none

/-- `visit_Tuple`'s element loop: renderings of the elements in order. -/
def redocList : List PyAst → Option (List String)
  | [] => some []
  | e :: es =>
    match redoc e, redocList es with
    | some r, some rs => some (r :: rs)
    | _, _ => none

end

/-! ### The expression parser

Modelled from the spec: the source parses a matched substring with the host
language's general expression parser (`ast.parse`, external to this
repository); §4.2 of the spec restricts it to the annotation grammar —
"identifiers, dotted attribute access, subscript application (single
argument or comma-separated tuple inside `[...]`), ellipsis literal, and a
unary invert marker" — and §9 instructs a reimplementation to accept exactly
that grammar and reject everything else with a parse error.  The
recursive-descent parser below does exactly that (whitespace between tokens
is skipped, as the host parser does).  A `SyntaxError` is modelled as
`none`.  On the annotation grammar it agrees with the pre-3.9 `ast.parse`:
a subscript slice becomes an `Index` node, comma-separated slice elements
become a `Tuple`, and `...` becomes an `Ellipsis` node. -/

/-- First character of an identifier token. -/
def isIdentStart (c : Char) : Bool := c.isAlpha || c = '_'

/-- Subsequent characters of an identifier token. -/
def isIdentChar (c : Char) : Bool := c.isAlpha || c.isDigit || c = '_'

/-- Skip blanks between tokens. -/
def skipSpaces : List Char → List Char
  | [] => []
  | c :: cs => if c = ' ' then skipSpaces cs else c :: cs

/-- Scan an identifier token at the head of the input. -/
def parseIdent (cs : List Char) : Option (String × List Char) :=
  match cs with
  | [] => none
  | c :: _ =>
    if isIdentStart c then
      some (String.mk (cs.takeWhile isIdentChar), cs.dropWhile isIdentChar)
    else none

/-- Whether the input starts with the three-character ellipsis token.  (An
input starting with `.` but not with `...` fails either way: a lone `.` is
not an identifier start.) -/
def startsEll (cs : List Char) : Bool := cs.take 3 = ['.', '.', '.']

/-- An atom of the grammar: an ellipsis literal or an identifier.  Expects
its input already stripped of leading blanks. -/
def parsePrimary (cs : List Char) : Option (PyAst × List Char) :=
  if startsEll cs then some (.Ellipsis, cs.drop 3)
  else
    match parseIdent cs with
    | some (i, r) => some (.Name i, r)
    | none => none

mutual

/-- An expression: an optional chain of `~` markers applied to a postfix
expression (`~` binds more loosely than `.` and `[...]`). -/
def parseExpr : Nat → List Char → Option (PyAst × List Char)
  | 0, _ => none
  | f + 1, cs =>
    match skipSpaces cs with
    | [] => none
    | c :: cs' =>
      if c = '~' then
        match parseExpr f cs' with
        | some (e, r) => some (.Invert e, r)
        | none => none
      else
        match parsePrimary (c :: cs') with
        | some (e, r) => parseSuffix f e r
        | none => none

/-- Postfix suffixes: `.ident` (attribute access) and `[...]` (subscript;
the bracket contents parse as an expression list, wrapped in `Index`). -/
def parseSuffix : Nat → PyAst → List Char → Option (PyAst × List Char)
  | 0, _, _ => none
  | f + 1, e, cs =>
    match skipSpaces cs with
    | [] => some (e, [])
    | c :: cs' =>
      if c = '.' then
        match parseIdent (skipSpaces cs') with
        | some (a, r) => parseSuffix f (.Attribute e a) r
        | none => none
      else if c = '[' then
        match parseList f cs' with
        | some (arg, r) =>
          match skipSpaces r with
          | c' :: r' =>
            if c' = ']' then parseSuffix f (.Subscript e (.Index arg)) r'
            else none
          | [] => none
        | none => none
      else some (e, c :: cs')

/-- A comma-separated expression list: one expression yields itself, two or
more yield a `Tuple`. -/
def parseList : Nat → List Char → Option (PyAst × List Char)
  | 0, _ => none
  | f + 1, cs =>
    match parseExpr f cs with
    | some (e, r) => parseListRest f [e] r
    | none => none

/-- The tail of an expression list, accumulating elements seen so far. -/
def parseListRest : Nat → List PyAst → List Char → Option (PyAst × List Char)
  | 0, _, _ => none
  | f + 1, acc, cs =>
    match skipSpaces cs with
    | [] =>
      match acc with
      | [e] => some (e, [])
      | _ => some (.Tuple acc, [])
    | c :: cs' =>
      if c = ',' then
        match parseExpr f cs' with
        | some (e, r) => parseListRest f (acc ++ [e]) r
        | none => none
      else
        match acc with
        | [e] => some (e, c :: cs')
        | _ => some (.Tuple acc, c :: cs')

end

/-- Fuel that always suffices for `parseList` on `cs`. -/
def parseFuel (cs : List Char) : Nat := 3 * cs.length + 3

/-- Parse a complete annotation string: a top-level expression list (the
host parser also accepts an unparenthesized tuple at statement level) with
nothing but blanks left over. -/
def parseAnnL (cs : List Char) : Option PyAst :=
  match parseList (parseFuel cs) cs with
  | some (a, r) => if r = [] then some a else none
  | none => none

/-- `transform(annotation)` (source lines 118-125): parse, collapse
attribute chains, render.  `none` models a raised exception. -/
def transform (s : String) : Option String :=
  match parseAnnL s.data with
  | none => none
  | some tree =>
    match collapseAttrs tree with
    | none => none
    | some tree' => redoc tree'

/-- `transform` at the character-list level, as used by the line scanner. -/
def transformL (cs : List Char) : Option (List Char) :=
  (transform (String.mk cs)).map String.data

/-! ### The annotation locators

`TYPE_RE = \*?((T1|T2|...)\[.+\])\*?` and
`BARE_TYPE_RE = \*?(B1|...|B6)(?! ?\[)(?! ?\x60)\*?`, together with Python's
`re.sub` semantics (scan left to right, replace each non-overlapping match,
resume after the match).  The patterns are translated directly:

* `\*?` tries to consume a literal `*` and backtracks to the empty
  alternative on failure (no recognized name starts with `*`, so the
  backtracking is explicit in `typeReHead` / `bareHead`);
* the name alternation tries the alternatives in order and keeps the first
  one whose following context also matches;
* `.+` is greedy and `.` does not match a newline, so `\[.+\]` runs from the
  `[` to the last `]` of the newline-free stretch that follows, with at
  least one character in between. -/

/-- `.` of the regexes: any character except a newline. -/
def notNL (c : Char) : Bool := if c = '\n' then false else true

/-- Index of the last occurrence of `c`. -/
def lastIdxOf (c : Char) : List Char → Option Nat
  | [] => none
  | x :: xs =>
    match lastIdxOf c xs with
    | some i => some (i + 1)
    | none => if x = c then some 0 else none

/-- Greedy `.+\]` applied to the text after the opening bracket: split at
the last `]` reachable without crossing a newline, requiring at least one
content character.  Returns the content and the text after that `]`. -/
def greedySplit (cs : List Char) : Option (List Char × List Char) :=
  match lastIdxOf ']' (cs.takeWhile notNL) with
  | some k => if 1 ≤ k then some (cs.take k, cs.drop (k + 1)) else none
  | none => none

/-- The `_TYPES` alternation immediately followed by `[`: the first name in
the list that is a prefix of the input with `[` right after it.  Returns the
name and the input from the `[` on. -/
def pickType : List (List Char) → List Char → Option (List Char × List Char)
  | [], _ => none
  | nm :: ns, cs =>
    if nm.isPrefixOf cs ∧ (cs.drop nm.length).head? = some '[' then
      some (nm, cs.drop nm.length)
    else pickType ns cs

/-- `TYPES` as character lists, the alternation of `TYPE_RE`. -/
def TYPES_L : List (List Char) := TYPES.map String.data

/-- `BARE_TYPES` as character lists, the alternation of `BARE_TYPE_RE`. -/
def BARE_L : List (List Char) := BARE_TYPES.map String.data

/-- `((T1|...)\[.+\])\*?` at the head of the input: on success, group 1
(`name[...]` up to the greedy `]`) and the number of characters matched from
here (including a trailing `*` consumed by the final `\*?`). -/
def typeReInner (cs : List Char) : Option (List Char × Nat) :=
  match pickType TYPES_L cs with
  | none => none
  | some (nm, after) =>
    match greedySplit after.tail with
    | none => none
    | some (content, rest) =>
      some (nm ++ '[' :: content ++ [']'],
        nm.length + content.length + 2 +
          (if rest.head? = some '*' then 1 else 0))

/-- A `TYPE_RE` match anchored at the head of the input: the leading `\*?`
first tries to consume a `*`, falling back to the empty alternative. -/
def typeReHead (cs : List Char) : Option (List Char × Nat) :=
  match cs with
  | [] => none
  | c :: cs' =>
    if c = '*' then
      match typeReInner cs' with
      | some (g, n) => some (g, n + 1)
      | none => typeReInner (c :: cs')
    else typeReInner (c :: cs')

/-- `re.sub(TYPE_RE, lambda m: transform(m.group(1)), line)`: scan left to
right; at a match, splice in `transform` of group 1 and resume after the
match; `none` when `transform` raises (the exception propagates out of
`re.sub`).  The fuel is one more than the length of the text, which the
scanner never consumes faster than the text. -/
def subTypeReAux : Nat → List Char → Option (List Char)
  | 0, _ => none
  | _ + 1, [] => some []
  | k + 1, c :: rest =>
    match typeReHead (c :: rest) with
    | none =>
      match subTypeReAux k rest with
      | some out => some (c :: out)
      | none => none
    | some (g, n) =>
      match transformL g with
      | none => none
      | some repl =>
        match subTypeReAux k (rest.drop (n - 1)) with
        | some out => some (repl ++ out)
        | none => none

/-- The first `re.sub` pass over a line. -/
def subTypeRe (s : String) : Option String :=
  (subTypeReAux (s.data.length + 1) s.data).map String.mk

/-- The negative lookaheads `(?! ?\[)(?! ?\x60)` of `BARE_TYPE_RE`, checked
at the position right after the matched name. -/
def bareLookaheadOk (cs : List Char) : Bool :=
  match cs with
  | [] => true
  | c :: cs' =>
    if c = '[' then false
    else if c = backquote then false
    else if c = ' ' then
      match cs' with
      | [] => true
      | d :: _ => if d = '[' then false else if d = backquote then false else true
    else true

/-- The `_BARE_TYPES` alternation with its lookaheads: the first name in
source order that is a prefix of the input and passes both lookaheads. -/
def pickBare : List (List Char) → List Char → Option (List Char × List Char)
  | [], _ => none
  | nm :: ns, cs =>
    if nm.isPrefixOf cs ∧ bareLookaheadOk (cs.drop nm.length) then
      some (nm, cs.drop nm.length)
    else pickBare ns cs

/-- `(B1|...)(?! ?\[)(?! ?\x60)\*?` at the head of the input: group 1 (the
bare name) and the characters matched from here. -/
def bareInner (cs : List Char) : Option (List Char × Nat) :=
  match pickBare BARE_L cs with
  | none => none
  | some (nm, after) =>
    some (nm, nm.length + (if after.head? = some '*' then 1 else 0))

/-- A `BARE_TYPE_RE` match anchored at the head of the input. -/
def bareHead (cs : List Char) : Option (List Char × Nat) :=
  match cs with
  | [] => none
  | c :: cs' =>
    if c = '*' then
      match bareInner cs' with
      | some (g, n) => some (g, n + 1)
      | none => bareInner (c :: cs')
    else bareInner (c :: cs')

/-- `re.sub(BARE_TYPE_RE, lambda m: transform(m.group(1)), line)`. -/
def subBareReAux : Nat → List Char → Option (List Char)
  | 0, _ => none
  | _ + 1, [] => some []
  | k + 1, c :: rest =>
    match bareHead (c :: rest) with
    | none =>
      match subBareReAux k rest with
      | some out => some (c :: out)
      | none => none
    | some (g, n) =>
      match transformL g with
      | none => none
      | some repl =>
        match subBareReAux k (rest.drop (n - 1)) with
        | some out => some (repl ++ out)
        | none => none

/-- The second `re.sub` pass over a line. -/
def subBareRe (s : String) : Option String :=
  (subBareReAux (s.data.length + 1) s.data).map String.mk

/-! ### The per-line orchestrator -/

/-- The diagnostics `autodoc_process_docstring` can log for a line: the
warning emitted by the `except` clause (carrying the offending line; the
source message also embeds the exception text) and the verbose
before/after message emitted when a line changed (the source message also
carries the documented object's name). -/
inductive Diag : Type
  | warnUnparseable (line : String)
  | verboseReplaced (line newLine : String)
deriving Repr, DecidableEq

/-- One iteration of the loop in `autodoc_process_docstring` (source lines
134-160): `new_line` starts as the line; the `TYPE_RE` pass and then the
`BARE_TYPE_RE` pass reassign it; an exception from either pass leaves
`new_line` at its last assigned value and logs one warning; if `new_line`
differs from the line, a verbose diagnostic is logged and the buffer entry
is replaced.  Returns the final buffer entry and the diagnostics in order. -/
def processLine (line : String) : String × List Diag :=
  match subTypeRe line with
  | none => (line, [Diag.warnUnparseable line])
  | some l₁ =>
    match subBareRe l₁ with
    | none =>
      if line = l₁ then (line, [Diag.warnUnparseable line])
      else (l₁, [Diag.warnUnparseable line, Diag.verboseReplaced line l₁])
    | some l₂ =>
      if line = l₂ then (line, [])
      else (l₂, [Diag.verboseReplaced line l₂])

/-- `autodoc_process_docstring`: every line of the buffer is processed in
order, independently of the others; the buffer is mutated in place, modelled
as returning the new buffer together with all diagnostics. -/
def autodoc_process_docstring (lines : List String) : List String × List Diag :=
  (lines.map fun l => (processLine l).1,
   (lines.map fun l => (processLine l).2).flatten)

/-- No position of the line starts a `TYPE_RE` match. -/
def typeReNoMatch (cs : List Char) : Bool :=
  (List.range (cs.length + 1)).all fun i => (typeReHead (cs.drop i)).isNone

/-- No position of the line starts a `BARE_TYPE_RE` match. -/
def bareReNoMatch (cs : List Char) : Bool :=
  (List.range (cs.length + 1)).all fun i => (bareHead (cs.drop i)).isNone

/-- A pure dotted chain `base.id₁.id₂...`, as nested `Attribute` nodes
terminating in a `Name` (identifiers listed in chain order). -/
def mkChain (base : String) (ids : List String) : PyAst :=
  ids.foldl (fun e a => .Attribute e a) (.Name base)

/-- The dot-joined identifier sequence of a chain. -/
def dotJoin (base : String) (ids : List String) : String :=
  ids.foldl (fun s a => s ++ "." ++ a) base

mutual

/-- Whether any `Attribute` node is reachable in the tree. -/
def hasAttributeNode : PyAst → Bool
  | .Name _ => false
  | .Attribute _ _ => true
  | .Subscript v s => hasAttributeNode v || hasAttributeNode s
  | .Index v => hasAttributeNode v
  | .Tuple es => hasAttributeNodeList es
  | .Ellipsis => false
  | .Invert o => hasAttributeNode o

/-- `hasAttributeNode` over a list of elements. -/
def hasAttributeNodeList : List PyAst → Bool
  | [] => false
  | e :: es => hasAttributeNode e || hasAttributeNodeList es

end

/-! ### Helper lemmas -/

theorem str_ext {a b : String} (h : a.data = b.data) : a = b := by
  cases a; cases b; exact congrArg String.mk h

theorem data_mk (l : List Char) : (String.mk l).data = l := rfl

theorem mk_data (s : String) : String.mk s.data = s := rfl

/-! Lemmas about `CollapseAttrsVisitor`. -/

mutual

/-- A successful collapse leaves no `Attribute` node anywhere in the result:
`visit_Attribute` always returns a `Name`, and every other node is rebuilt
from its collapsed children. -/
theorem collapse_no_attr : ∀ (t u : PyAst), collapseAttrs t = some u →
    hasAttributeNode u = false
  | .Name i, u, h => by
      simp only [collapseAttrs, Option.some.injEq] at h
      subst h; rfl
  | .Attribute v a, u, h => by
      cases hv : collapseAttrs v with
      | none => simp [collapseAttrs, hv] at h
      | some child =>
        simp only [collapseAttrs, hv] at h
        cases child with
        | Attribute w pa => simp only [Option.some.injEq] at h; subst h; rfl
        | Name i => simp only [Option.some.injEq] at h; subst h; rfl
        | _ => simp at h
  | .Subscript v sl, u, h => by
      cases hv : collapseAttrs v with
      | none => simp [collapseAttrs, hv] at h
      | some v' =>
        cases hs : collapseAttrs sl with
        | none => simp [collapseAttrs, hv, hs] at h
        | some s' =>
          simp only [collapseAttrs, hv, hs, Option.some.injEq] at h
          subst h
          have h₁ := collapse_no_attr v v' hv
          have h₂ := collapse_no_attr sl s' hs
          simp [hasAttributeNode, h₁, h₂]
  | .Index v, u, h => by
      cases hv : collapseAttrs v with
      | none => simp [collapseAttrs, hv] at h
      | some v' =>
        simp only [collapseAttrs, hv, Option.some.injEq] at h
        subst h
        simpa [hasAttributeNode] using collapse_no_attr v v' hv
  | .Tuple es, u, h => by
      cases hes : collapseList es with
      | none => simp [collapseAttrs, hes] at h
      | some es' =>
        simp only [collapseAttrs, hes, Option.some.injEq] at h
        subst h
        simpa [hasAttributeNode] using collapse_no_attr_list es es' hes
  | .Ellipsis, u, h => by
      simp only [collapseAttrs, Option.some.injEq] at h
      subst h; rfl
  | .Invert o, u, h => by
      cases ho : collapseAttrs o with
      | none => simp [collapseAttrs, ho] at h
      | some o' =>
        simp only [collapseAttrs, ho, Option.some.injEq] at h
        subst h
        simpa [hasAttributeNode] using collapse_no_attr o o' ho

/-- `collapse_no_attr` for the element list of a `Tuple`. -/
theorem collapse_no_attr_list : ∀ (es us : List PyAst), collapseList es = some us →
    hasAttributeNodeList us = false
  | [], us, h => by
      simp only [collapseList, Option.some.injEq] at h
      subst h; rfl
  | e :: es, us, h => by
      cases he : collapseAttrs e with
      | none => simp [collapseList, he] at h
      | some e' =>
        cases hes : collapseList es with
        | none => simp [collapseList, he, hes] at h
        | some es' =>
          simp only [collapseList, he, hes, Option.some.injEq] at h
          subst h
          have h₁ := collapse_no_attr e e' he
          have h₂ := collapse_no_attr_list es es' hes
          simp [hasAttributeNodeList, h₁, h₂]

end

/-- Collapsing a dotted chain built on top of an accumulator that collapses
to a `Name`: each `Attribute` layer collapses its child first, then extends
the child's identifier with `'.' + attr`. -/
theorem collapse_chain_aux (ids : List String) :
    ∀ (acc : PyAst) (s : String), collapseAttrs acc = some (.Name s) →
      collapseAttrs (ids.foldl (fun e a => .Attribute e a) acc)
        = some (.Name (ids.foldl (fun t a => t ++ "." ++ a) s)) := by
  induction ids with
  | nil => intro acc s h; simpa using h
  | cons a ids ih =>
    intro acc s h
    have h' : collapseAttrs (.Attribute acc a) = some (.Name (s ++ "." ++ a)) := by
      simp [collapseAttrs, h]
    simpa using ih (.Attribute acc a) (s ++ "." ++ a) h'

/-- Concatenation of strings is associative (via the underlying data). -/
theorem str_append_assoc (a b c : String) : a ++ b ++ c = a ++ (b ++ c) :=
  str_ext (by simp [String.data_append, List.append_assoc])

/-- Every exported `typing` name is an attribute of the module. -/
theorem all_hasattr {n : String} (h : n ∈ typingAll) : hasattrTyping n = true := by
  have h₂ : n ∈ typingAttrs := by
    unfold typingAttrs
    exact List.mem_append_left _ h
  simpa [hasattrTyping] using h₂

/-- Every name of the recognized vocabulary is an attribute of `typing`. -/
theorem vocab_hasattr {n : String} (h : n ∈ TYPES ∨ n ∈ BARE_TYPES) :
    hasattrTyping n = true := by
  apply all_hasattr
  rcases h with h | h
  · exact (List.mem_filter.mp h).1
  · have hs : ∀ x ∈ BARE_TYPES, x ∈ typingAll := by decide
    exact hs n h

/-- The helper names excluded from the vocabulary are still attributes of
`typing` (they sit in `typing.__all__`). -/
theorem excluded_hasattr {n : String} (h : n ∈ typesExcluded) :
    hasattrTyping n = true := by
  apply all_hasattr
  have hs : ∀ x ∈ typesExcluded, x ∈ typingAll := by decide
  exact hs n h

/-- The shape `renderName` takes on a `typing` attribute. -/
theorem renderName_hasattr {n : String} (h : hasattrTyping n = true) :
    renderName n = ":py:obj:`~typing." ++ n ++ "`" := by
  apply str_ext
  simp only [renderName, h, if_true, String.data_append, data_mk, List.append_assoc]
  generalize n.data = l
  simp only [← List.append_assoc]
  congr 1

/-- The shape `renderName` takes outside the `typing` attributes. -/
theorem renderName_plain {n : String} (h : hasattrTyping n = false) :
    renderName n = ":py:obj:`" ++ n ++ "`" := by
  apply str_ext
  simp only [renderName, h, Bool.false_eq_true, if_false, String.data_append, data_mk,
    List.append_assoc]
  generalize n.data = l
  simp only [← List.append_assoc]
  congr 1

/-! ### The claims -/

/-- C6: collapsing a pure dotted chain (nested `Attribute` nodes terminating
in a `Name`) yields a single `Name` whose identifier dot-joins all
identifiers in chain order, children being collapsed before parents; and
after any successful collapse no `Attribute` node remains reachable in the
result. -/
theorem C6_collapse_chain (base : String) (ids : List String) (t u : PyAst)
    (h : collapseAttrs t = some u) :
    collapseAttrs (mkChain base ids) = some (.Name (dotJoin base ids))
      ∧ hasAttributeNode u = false :=
  ⟨collapse_chain_aux ids (.Name base) base rfl, collapse_no_attr t u h⟩

/-- Witness for C6 at the chain `google.auth.credentials.Credentials`. -/
theorem C6_collapse_chain_witness :
    collapseAttrs (mkChain "google" ["auth", "credentials", "Credentials"])
        = some (PyAst.Name "google.auth.credentials.Credentials")
      ∧ hasAttributeNode (PyAst.Name "google.auth.credentials.Credentials") = false := by
  have hd : dotJoin "google" ["auth", "credentials", "Credentials"]
      = "google.auth.credentials.Credentials" := by decide
  have h₁ := (C6_collapse_chain "google" ["auth", "credentials", "Credentials"]
    (PyAst.Name "g") (PyAst.Name "g") rfl).1
  rw [hd] at h₁
  have h₂ := C6_collapse_chain "google" ["auth", "credentials", "Credentials"]
    (mkChain "google" ["auth", "credentials", "Credentials"])
    (PyAst.Name "google.auth.credentials.Credentials") h₁
  exact ⟨h₁, h₂.2⟩

/-- C8: `transform "Tuple[int,...]"` renders the ellipsis as the literal
`...` inside the bracket group, comma-separated from the rendering of
`int`. -/
theorem C8_tuple_ellipsis :
    transform "Tuple[int,...]"
      = some ":py:obj:`~typing.Tuple` [ :py:obj:`int`, ... ] " := by decide

/-- C9: `BARE_TYPE_RE` has no word-boundary guard and lists `Any` before
`AnyStr`, so on the line `AnyStr` only the `Any` prefix is rewritten,
leaving `:py:obj:`~typing.Any`Str`. -/
theorem C9_anystr_prefix :
    autodoc_process_docstring ["AnyStr"]
      = ([":py:obj:`~typing.Any`Str"],
         [Diag.verboseReplaced "AnyStr" ":py:obj:`~typing.Any`Str"]) := by decide

/-- C10: `List[int].attr` parses to an `Attribute` whose object is a
`Subscript`; the chain collapser reads an `id` field the collapsed child
lacks and raises, so `transform` fails on it; at the public interface such a
failure (here on the line `List[int].attr[x]`, whose greedy match covers
the whole dotted-subscript expression) surfaces only as a caught per-line
warning, the line staying unchanged. -/
theorem C10_collapse_nonname_failure :
    parseAnnL ("List[int].attr".data)
        = some (PyAst.Attribute
            (PyAst.Subscript (PyAst.Name "List") (PyAst.Index (PyAst.Name "int"))) "attr")
      ∧ collapseAttrs (PyAst.Attribute
            (PyAst.Subscript (PyAst.Name "List") (PyAst.Index (PyAst.Name "int"))) "attr")
          = none
      ∧ transform "List[int].attr" = none
      ∧ autodoc_process_docstring ["List[int].attr[x]"]
          = (["List[int].attr[x]"], [Diag.warnUnparseable "List[int].attr[x]"]) :=
  ⟨by rfl, by rfl, by decide, by decide⟩

/-- C3 counterexample: `cast` is outside both vocabulary sets, yet the
renderer emits `:py:obj:`~typing.cast`` for it (the code tests
`hasattr(typing, name)`, not vocabulary membership), not the unprefixed
`:py:obj:`cast`` the claim requires; such a `Name` reaches the renderer,
e.g. from `transform "Optional[cast]"`. -/
theorem C3_renderer_vocabulary_cex :
    ¬ ("cast" ∈ TYPES ∨ "cast" ∈ BARE_TYPES)
      ∧ redoc (PyAst.Name "cast") = some ":py:obj:`~typing.cast`"
      ∧ transform "Optional[cast]"
          = some ":py:obj:`~typing.Optional` [ :py:obj:`~typing.cast` ] "
      ∧ ":py:obj:`~typing.cast`" ≠ ":py:obj:`cast`" :=
  ⟨by decide, by decide, by decide, by decide⟩

/-- C3 amended: the renderer prefixes `~typing.` exactly when the
identifier is an attribute of the `typing` module (`hasattr(typing, id)`) —
a set strictly larger than the two vocabulary sets: it contains every
vocabulary name, the excluded helper names such as `cast`, and also the
module's non-exported attributes (`sys`, `io`, `re`, `abc`, ...).  Only
identifiers outside the `typing` attributes are emitted without the
prefix. -/
theorem C3_renderer_hasattr (id : String) :
    (hasattrTyping id = true →
      redoc (PyAst.Name id) = some (":py:obj:`~typing." ++ id ++ "`"))
  ∧ (hasattrTyping id = false →
      redoc (PyAst.Name id) = some (":py:obj:`" ++ id ++ "`"))
  ∧ (id ∈ TYPES ∨ id ∈ BARE_TYPES → hasattrTyping id = true)
  ∧ (id ∈ typesExcluded → hasattrTyping id = true) := by
  refine ⟨?_, ?_, vocab_hasattr, excluded_hasattr⟩
  · intro h
    simp only [redoc, Option.some.injEq]
    exact renderName_hasattr h
  · intro h
    simp only [redoc, Option.some.injEq]
    exact renderName_plain h

/-- Witness for C3 amended, exercising each hypothesis: the non-exported
module attribute `io` (prefixed although it is in neither vocabulary set),
the non-`typing` identifier `datetime` (plain), the vocabulary name
`Sequence`, and the excluded helper `cast`. -/
theorem C3_renderer_hasattr_witness :
    redoc (PyAst.Name "io") = some (":py:obj:`~typing." ++ "io" ++ "`")
      ∧ redoc (PyAst.Name "datetime") = some (":py:obj:`" ++ "datetime" ++ "`")
      ∧ hasattrTyping "Sequence" = true
      ∧ hasattrTyping "cast" = true :=
  ⟨(C3_renderer_hasattr "io").1 (by decide),
   (C3_renderer_hasattr "datetime").2.1 (by decide),
   (C3_renderer_hasattr "Sequence").2.2.1 (Or.inl (by decide)),
   (C3_renderer_hasattr "cast").2.2.2 (by decide)⟩

/-- C4 counterexample: wrapping by the decoration character `_` (any
character other than `*`) is not stripped: the rewritten line keeps both
underscores around the markup. -/
theorem C4_decoration_cex :
    (autodoc_process_docstring ["_Optional[datetime]_"]).1
        = ["_:py:obj:`~typing.Optional` [ :py:obj:`datetime` ] _"]
      ∧ "_:py:obj:`~typing.Optional` [ :py:obj:`datetime` ] _"
          ≠ ":py:obj:`~typing.Optional` [ :py:obj:`datetime` ] " :=
  ⟨by decide, by decide⟩

/-- C4 amended: only the decoration character `*` is stripped (the patterns
spell `\*?` literally): `*Optional[datetime]*` rewrites to the bare markup,
while for any other decoration character, e.g. `_`, the annotation is still
matched and rewritten but the decoration characters remain in the line. -/
theorem C4_star_only :
    autodoc_process_docstring ["*Optional[datetime]*"]
        = ([":py:obj:`~typing.Optional` [ :py:obj:`datetime` ] "],
           [Diag.verboseReplaced "*Optional[datetime]*"
              ":py:obj:`~typing.Optional` [ :py:obj:`datetime` ] "])
      ∧ autodoc_process_docstring ["_Optional[datetime]_"]
          = (["_:py:obj:`~typing.Optional` [ :py:obj:`datetime` ] _"],
             [Diag.verboseReplaced "_Optional[datetime]_"
                "_:py:obj:`~typing.Optional` [ :py:obj:`datetime` ] _"]) :=
  ⟨by decide, by decide⟩

/-! Lemmas for the line rewriter: the bare-name pass can never raise,
because the replacement callback only ever transforms one of the six bare
names, each of which parses and renders. -/

theorem pickBare_mem : ∀ (ns : List (List Char)) (cs g after : List Char),
    pickBare ns cs = some (g, after) → g ∈ ns := by
  intro ns
  induction ns with
  | nil => intro cs g after h; simp [pickBare] at h
  | cons nm ns ih =>
    intro cs g after h
    simp only [pickBare] at h
    split at h
    · simp only [Option.some.injEq, Prod.mk.injEq] at h
      exact h.1 ▸ List.mem_cons_self nm ns
    · exact List.mem_cons_of_mem _ (ih cs g after h)

theorem bareInner_mem {cs g : List Char} {n : Nat} (h : bareInner cs = some (g, n)) :
    g ∈ BARE_L := by
  unfold bareInner at h
  cases hp : pickBare BARE_L cs with
  | none => rw [hp] at h; exact absurd h (by simp)
  | some p =>
    rw [hp] at h
    simp only [Option.some.injEq, Prod.mk.injEq] at h
    exact h.1 ▸ pickBare_mem BARE_L cs p.1 p.2 hp

theorem bareHead_mem {cs g : List Char} {n : Nat} (h : bareHead cs = some (g, n)) :
    g ∈ BARE_L := by
  cases cs with
  | nil => exact absurd h (by simp [bareHead])
  | cons c cs' =>
    simp only [bareHead] at h
    split at h
    · cases hbi : bareInner cs' with
      | none => rw [hbi] at h; exact bareInner_mem h
      | some p =>
        rw [hbi] at h
        obtain ⟨g', n'⟩ := p
        simp only [Option.some.injEq, Prod.mk.injEq] at h
        exact h.1 ▸ bareInner_mem hbi
    · exact bareInner_mem h

theorem bare_transform_total : ∀ g ∈ BARE_L, (transformL g).isSome = true := by decide

theorem subBareReAux_total : ∀ (k : Nat) (cs : List Char), cs.length < k →
    (subBareReAux k cs).isSome = true := by
  intro k
  induction k with
  | zero => intro cs h; exact absurd h (Nat.not_lt_zero _)
  | succ k ih =>
    intro cs h
    match cs with
    | [] => simp [subBareReAux]
    | c :: rest =>
      have hr : rest.length < k := by simpa using Nat.lt_of_succ_lt_succ h
      cases hb : bareHead (c :: rest) with
      | none =>
        have hrec := ih rest hr
        cases hrec' : subBareReAux k rest with
        | none => rw [hrec'] at hrec; exact absurd hrec (by simp)
        | some out => simp [subBareReAux, hb, hrec']
      | some gn =>
        obtain ⟨g, n⟩ := gn
        have htr := bare_transform_total g (bareHead_mem hb)
        cases htl : transformL g with
        | none => rw [htl] at htr; exact absurd htr (by simp)
        | some repl =>
          have hlen : (rest.drop (n - 1)).length < k := by
            have := List.length_drop (n - 1) rest
            omega
          have hrec := ih _ hlen
          cases hrec' : subBareReAux k (rest.drop (n - 1)) with
          | none => rw [hrec'] at hrec; exact absurd hrec (by simp)
          | some out => simp [subBareReAux, hb, htl, hrec']

theorem subBareRe_total (s : String) : (subBareRe s).isSome = true := by
  unfold subBareRe
  have htot := subBareReAux_total (s.data.length + 1) s.data (by omega)
  cases h : subBareReAux (s.data.length + 1) s.data with
  | none => rw [h] at htot; exact absurd htot (by simp)
  | some out => simp [h]

/-- C2: when a located match on a line makes `transform` raise (equivalently
here, when the `TYPE_RE` pass raises: the `BARE_TYPE_RE` pass only ever
transforms bare vocabulary names and cannot raise, `subBareRe_total`), the
failure is caught at the line level: that line is left unchanged in the
buffer, exactly one warning diagnostic carrying the original line is
emitted, and every line of the buffer is still processed independently —
the call itself is total. -/
theorem C2_line_failure_isolated (lines : List String) (n : Nat) (L : String)
    (hn : lines[n]? = some L) (hf : subTypeRe L = none) :
    (autodoc_process_docstring lines).1[n]? = some L
  ∧ processLine L = (L, [Diag.warnUnparseable L])
  ∧ (autodoc_process_docstring lines).1.length = lines.length
  ∧ ∀ m : Nat, (autodoc_process_docstring lines).1[m]?
      = (lines[m]?).map fun l => (processLine l).1 := by
  have hp : processLine L = (L, [Diag.warnUnparseable L]) := by
    simp [processLine, hf]
  refine ⟨?_, hp, ?_, ?_⟩
  · simp [autodoc_process_docstring, List.getElem?_map, hn, hp]
  · simp [autodoc_process_docstring]
  · intro m
    simp [autodoc_process_docstring, List.getElem?_map]

/-- Witness for C2: the line `List[int]]` is matched by `TYPE_RE` (group
`List[int]]`, greedy to the last `]`) but fails to parse; it is left
unchanged with one warning while the following line `Any` is still
rewritten. -/
theorem C2_line_failure_isolated_witness :
    ((["List[int]]", "Any"] : List String)[0]? = some "List[int]]"
        ∧ subTypeRe "List[int]]" = none)
      ∧ (autodoc_process_docstring ["List[int]]", "Any"]).1[0]? = some "List[int]]"
      ∧ processLine "List[int]]" = ("List[int]]", [Diag.warnUnparseable "List[int]]"])
      ∧ (autodoc_process_docstring ["List[int]]", "Any"]).1[1]?
          = some ":py:obj:`~typing.Any`" := by
  have h := C2_line_failure_isolated ["List[int]]", "Any"] 0 "List[int]]"
    (by decide) (by decide)
  exact ⟨⟨by decide, by decide⟩, h.1, h.2.1, by decide⟩

/-! Lemmas for C7: a line on which neither locator fires anywhere is
returned unchanged by both passes. -/

theorem scan_type_id : ∀ (k : Nat) (cs : List Char), cs.length < k →
    (∀ i : Nat, typeReHead (cs.drop i) = none) → subTypeReAux k cs = some cs := by
  intro k
  induction k with
  | zero => intro cs h; exact absurd h (Nat.not_lt_zero _)
  | succ k ih =>
    intro cs h hno
    match cs with
    | [] => simp [subTypeReAux]
    | c :: rest =>
      have h0 : typeReHead (c :: rest) = none := by simpa using hno 0
      have hrest : subTypeReAux k rest = some rest :=
        ih rest (by simpa using Nat.lt_of_succ_lt_succ h)
          (fun i => by simpa [List.drop_succ_cons] using hno (i + 1))
      simp [subTypeReAux, h0, hrest]

theorem scan_bare_id : ∀ (k : Nat) (cs : List Char), cs.length < k →
    (∀ i : Nat, bareHead (cs.drop i) = none) → subBareReAux k cs = some cs := by
  intro k
  induction k with
  | zero => intro cs h; exact absurd h (Nat.not_lt_zero _)
  | succ k ih =>
    intro cs h hno
    match cs with
    | [] => simp [subBareReAux]
    | c :: rest =>
      have h0 : bareHead (c :: rest) = none := by simpa using hno 0
      have hrest : subBareReAux k rest = some rest :=
        ih rest (by simpa using Nat.lt_of_succ_lt_succ h)
          (fun i => by simpa [List.drop_succ_cons] using hno (i + 1))
      simp [subBareReAux, h0, hrest]

theorem typeReNoMatch_all {cs : List Char} (h : typeReNoMatch cs = true) :
    ∀ i : Nat, typeReHead (cs.drop i) = none := by
  intro i
  by_cases hi : i ≤ cs.length
  · have hx := (List.all_eq_true.mp h) i (List.mem_range.mpr (by omega))
    exact Option.isNone_iff_eq_none.mp hx
  · rw [List.drop_eq_nil_of_le (by omega)]
    rfl

theorem bareReNoMatch_all {cs : List Char} (h : bareReNoMatch cs = true) :
    ∀ i : Nat, bareHead (cs.drop i) = none := by
  intro i
  by_cases hi : i ≤ cs.length
  · have hx := (List.all_eq_true.mp h) i (List.mem_range.mpr (by omega))
    exact Option.isNone_iff_eq_none.mp hx
  · rw [List.drop_eq_nil_of_le (by omega)]
    rfl

/-- C7: on a line on which neither locator pattern matches at any position —
in particular an already-rewritten line, where the recognized names inside
the emitted markup are shielded by the following backquote (or by the space
before the `[`), see the witness — re-running the rewriter is a no-op: the
line is left unchanged and no diagnostic is emitted. -/
theorem C7_rewritten_fixed (L : String) (h1 : typeReNoMatch L.data = true)
    (h2 : bareReNoMatch L.data = true) :
    processLine L = (L, []) ∧ autodoc_process_docstring [L] = ([L], []) := by
  have ht : subTypeRe L = some L := by
    unfold subTypeRe
    rw [scan_type_id (L.data.length + 1) L.data (by omega) (typeReNoMatch_all h1)]
    rfl
  have hb : subBareRe L = some L := by
    unfold subBareRe
    rw [scan_bare_id (L.data.length + 1) L.data (by omega) (bareReNoMatch_all h2)]
    rfl
  have hp : processLine L = (L, []) := by simp [processLine, ht, hb]
  exact ⟨hp, by simp [autodoc_process_docstring, hp]⟩

/-- Witness for C7 at the rewritten form of `Mapping[str, Any]`: the output
contains the recognized names `Mapping` (argument-taking) and `Any` (bare),
both shielded — `Mapping` is followed by a backquote rather than `[`, and
`Any` is followed by a backquote which the bare lookahead rejects. -/
theorem C7_rewritten_fixed_witness :
    (typeReNoMatch (":py:obj:`~typing.Mapping` [ :py:obj:`str`, :py:obj:`~typing.Any` ] ").data
        = true
      ∧ bareReNoMatch (":py:obj:`~typing.Mapping` [ :py:obj:`str`, :py:obj:`~typing.Any` ] ").data
          = true)
      ∧ processLine ":py:obj:`~typing.Mapping` [ :py:obj:`str`, :py:obj:`~typing.Any` ] "
          = (":py:obj:`~typing.Mapping` [ :py:obj:`str`, :py:obj:`~typing.Any` ] ", []) :=
  ⟨⟨by decide, by decide⟩,
   (C7_rewritten_fixed ":py:obj:`~typing.Mapping` [ :py:obj:`str`, :py:obj:`~typing.Any` ] "
     (by decide) (by decide)).1⟩

/-! Lemmas for C5: the greedy `\[.+\]` of `TYPE_RE`. -/

theorem lastIdxOf_none {c : Char} : ∀ {l : List Char}, lastIdxOf c l = none → ¬ c ∈ l := by
  intro l
  induction l with
  | nil => intro _; simp
  | cons x xs ih =>
    intro h
    simp only [lastIdxOf] at h
    cases hxs : lastIdxOf c xs with
    | some i => rw [hxs] at h; exact absurd h (by simp)
    | none =>
      rw [hxs] at h
      by_cases hxc : x = c
      · rw [if_pos hxc] at h
        exact absurd h (by simp)
      · intro hm
        rcases List.mem_cons.mp hm with hm | hm
        · exact hxc hm.symm
        · exact ih hxs hm

theorem lastIdxOf_spec {c : Char} : ∀ {l : List Char} {k : Nat},
    lastIdxOf c l = some k → ∃ a b, l = a ++ c :: b ∧ a.length = k ∧ ¬ c ∈ b := by
  intro l
  induction l with
  | nil => intro k h; simp [lastIdxOf] at h
  | cons x xs ih =>
    intro k h
    simp only [lastIdxOf] at h
    cases hxs : lastIdxOf c xs with
    | some i =>
      rw [hxs] at h
      simp only [Option.some.injEq] at h
      obtain ⟨a, b, hab, hlen, hnb⟩ := ih hxs
      exact ⟨x :: a, b, by simp [hab], by simp [hlen, ← h], hnb⟩
    | none =>
      rw [hxs] at h
      by_cases hxc : x = c
      · rw [if_pos hxc] at h
        simp only [Option.some.injEq] at h
        exact ⟨[], xs, by simp [hxc], by simpa using h, lastIdxOf_none hxs⟩
      · rw [if_neg hxc] at h
        exact absurd h (by simp)

theorem takeWhile_notNL {cs : List Char} (hnl : ¬ '\n' ∈ cs) :
    cs.takeWhile notNL = cs := by
  apply List.takeWhile_eq_self_iff.mpr
  intro x hx
  unfold notNL
  split
  · rename_i hx'
    exact absurd (hx' ▸ hx) hnl
  · rfl

theorem greedySplit_spec {cs content rest : List Char} (hnl : ¬ '\n' ∈ cs)
    (h : greedySplit cs = some (content, rest)) :
    cs = content ++ ']' :: rest ∧ 1 ≤ content.length ∧ ¬ ']' ∈ rest := by
  unfold greedySplit at h
  rw [takeWhile_notNL hnl] at h
  cases hL : lastIdxOf ']' cs with
  | none => rw [hL] at h; exact absurd h (by simp)
  | some k =>
    simp only [hL] at h
    split at h
    · rename_i hk
      simp only [Option.some.injEq, Prod.mk.injEq] at h
      obtain ⟨hc, hr⟩ := h
      obtain ⟨a, b, hab, hlen, hnb⟩ := lastIdxOf_spec hL
      have htake : cs.take k = a := by
        rw [hab, ← hlen]; exact List.take_left a (']' :: b)
      have hdrop : cs.drop (k + 1) = b := by
        have h₂ : a ++ ']' :: b = (a ++ [']']) ++ b := by simp
        have h₃ : (a ++ [']']).length = k + 1 := by simp [hlen]
        rw [hab, h₂, ← h₃]
        exact List.drop_left _ _
      refine ⟨?_, ?_, ?_⟩
      · rw [← hc, ← hr, htake, hdrop, hab]
      · rw [← hc, htake, hlen]; exact hk
      · rw [← hr, hdrop]; exact hnb
    · exact absurd h (by simp)

theorem pickType_spec : ∀ (ns : List (List Char)) (cs nm after : List Char),
    pickType ns cs = some (nm, after) →
    nm ∈ ns ∧ cs = nm ++ after ∧ after.head? = some '[' := by
  intro ns
  induction ns with
  | nil => intro cs nm after h; simp [pickType] at h
  | cons x ns ih =>
    intro cs nm after h
    simp only [pickType] at h
    split at h
    · rename_i hcond
      obtain ⟨hpre, hhead⟩ := hcond
      simp only [Option.some.injEq, Prod.mk.injEq] at h
      obtain ⟨h1, h2⟩ := h
      subst h1
      obtain ⟨t, ht⟩ := List.isPrefixOf_iff_prefix.mp hpre
      have hdt : cs.drop x.length = t := by rw [← ht]; exact List.drop_left _ _
      refine ⟨List.mem_cons_self _ _, ?_, ?_⟩
      · rw [← h2, hdt, ht]
      · rw [← h2]; exact hhead
    · obtain ⟨h1, h2, h3⟩ := ih cs nm after h
      exact ⟨List.mem_cons_of_mem _ h1, h2, h3⟩

theorem typeReInner_spec {cs g : List Char} {n : Nat} (hnl : ¬ '\n' ∈ cs)
    (h : typeReInner cs = some (g, n)) :
    g.getLast? = some ']' ∧ ¬ ']' ∈ cs.drop n := by
  unfold typeReInner at h
  cases hp : pickType TYPES_L cs with
  | none => rw [hp] at h; exact absurd h (by simp)
  | some p =>
    obtain ⟨nm, after⟩ := p
    rw [hp] at h
    obtain ⟨-, hcs, hhd⟩ := pickType_spec TYPES_L cs nm after hp
    cases after with
    | nil => simp at hhd
    | cons a0 afterBr =>
      simp only [List.head?_cons, Option.some.injEq] at hhd
      subst hhd
      simp only [List.tail_cons] at h
      cases hg : greedySplit afterBr with
      | none => rw [hg] at h; exact absurd h (by simp)
      | some q =>
        obtain ⟨content, rest⟩ := q
        rw [hg] at h
        simp only [Option.some.injEq, Prod.mk.injEq] at h
        obtain ⟨hgeq, hneq⟩ := h
        have hnl' : ¬ '\n' ∈ afterBr := fun hm =>
          hnl (by rw [hcs]; exact List.mem_append_right _ (List.mem_cons_of_mem _ hm))
        obtain ⟨hsplit, hclen, hnr⟩ := greedySplit_spec hnl' hg
        have hglast : g.getLast? = some ']' := by
          have hgform : g = (nm ++ '[' :: content) ++ [']'] := by
            subst hgeq; simp
          rw [hgform]; exact List.getLast?_concat _
        have hplen : (nm ++ '[' :: content ++ [']']).length
            = nm.length + content.length + 2 := by
          simp; omega
        have hdropm : cs.drop (nm.length + content.length + 2) = rest := by
          have hcs' : cs = (nm ++ '[' :: content ++ [']']) ++ rest := by
            rw [hcs, hsplit]; simp
          rw [hcs', ← hplen]
          exact List.drop_left _ _
        refine ⟨hglast, ?_⟩
        rw [← hneq]
        by_cases hst : rest.head? = some '*'
        · rw [if_pos hst]
          cases rest with
          | nil => simp at hst
          | cons r0 rtail =>
            have hdr : cs.drop (nm.length + content.length + 2 + 1) = rtail := by
              rw [← List.drop_drop, hdropm]
              rfl
            rw [hdr]
            exact fun hm => hnr (List.mem_cons_of_mem _ hm)
        · rw [if_neg hst, Nat.add_zero, hdropm]
          exact hnr

theorem mem_of_mem_takeWhile {p : Char → Bool} {x : Char} {l : List Char}
    (h : x ∈ l.takeWhile p) : x ∈ l :=
  (List.takeWhile_sublist p).subset h

theorem typeReInner_no_close {cs : List Char} (h : ¬ ']' ∈ cs) :
    typeReInner cs = none := by
  unfold typeReInner
  cases hp : pickType TYPES_L cs with
  | none => rfl
  | some p =>
    obtain ⟨nm, after⟩ := p
    obtain ⟨-, hcs, -⟩ := pickType_spec TYPES_L cs nm after hp
    have hga : greedySplit after.tail = none := by
      unfold greedySplit
      cases hL : lastIdxOf ']' (after.tail.takeWhile notNL) with
      | none => rfl
      | some k =>
        obtain ⟨a, b, hab, -, -⟩ := lastIdxOf_spec hL
        have h₁ : (']' : Char) ∈ after.tail.takeWhile notNL := by
          rw [hab]; exact List.mem_append_right _ (List.mem_cons_self _ _)
        have h₂ : (']' : Char) ∈ after.tail := mem_of_mem_takeWhile h₁
        have h₃ : (']' : Char) ∈ cs := by
          rw [hcs]
          apply List.mem_append_right
          cases after with
          | nil => simp at h₂
          | cons a0 t => exact List.mem_cons_of_mem _ h₂
        exact absurd h₃ h
    simp [hga]

theorem typeReHead_no_close {cs : List Char} (h : ¬ ']' ∈ cs) :
    typeReHead cs = none := by
  cases cs with
  | nil => rfl
  | cons c cs' =>
    have h' : ¬ ']' ∈ cs' := fun hm => h (List.mem_cons_of_mem _ hm)
    simp [typeReHead, typeReInner_no_close h', typeReInner_no_close h]

/-- C5: the bracketed group of a `TYPE_RE` match extends greedily to the
rightmost closing bracket of the (newline-free) line: the group ends with
`]`, no `]` occurs at or after the end of the match, and consequently no
further `TYPE_RE` match can start anywhere at or after the match end — a
line with two independent bracketed annotations yields one single match
spanning both (see the witness). -/
theorem C5_greedy_rightmost (cs g : List Char) (n : Nat)
    (hnl : ¬ '\n' ∈ cs) (h : typeReHead cs = some (g, n)) :
    g.getLast? = some ']'
  ∧ ¬ ']' ∈ cs.drop n
  ∧ ∀ j, n ≤ j → typeReHead (cs.drop j) = none := by
  have hmain : g.getLast? = some ']' ∧ ¬ ']' ∈ cs.drop n := by
    cases cs with
    | nil => exact absurd h (by simp [typeReHead])
    | cons c cs' =>
      simp only [typeReHead] at h
      split at h
      · cases hin : typeReInner cs' with
        | some q =>
          obtain ⟨g₀, n₀⟩ := q
          rw [hin] at h
          simp only [Option.some.injEq, Prod.mk.injEq] at h
          obtain ⟨hg, hn⟩ := h
          have hnl' : ¬ '\n' ∈ cs' := fun hm => hnl (List.mem_cons_of_mem _ hm)
          obtain ⟨h₁, h₂⟩ := typeReInner_spec hnl' hin
          subst hg
          rw [← hn, List.drop_succ_cons]
          exact ⟨h₁, h₂⟩
        | none =>
          rw [hin] at h
          exact typeReInner_spec hnl h
      · exact typeReInner_spec hnl h
  refine ⟨hmain.1, hmain.2, ?_⟩
  intro j hj
  apply typeReHead_no_close
  intro hm
  apply hmain.2
  have : cs.drop j = (cs.drop n).drop (j - n) := by
    rw [List.drop_drop]
    congr 1
    omega
  rw [this] at hm
  exact List.drop_subset _ _ hm

/-- Witness for C5: on `List[int] and Set[str]` the single match runs from
`List` across both bracketed groups up to the final `]` (the whole line),
and no match starts after it. -/
theorem C5_greedy_rightmost_witness :
    typeReHead ("List[int] and Set[str]".data)
        = some ("List[int] and Set[str]".data, 22)
      ∧ ("List[int] and Set[str]".data).getLast? = some ']'
      ∧ ¬ ']' ∈ ("List[int] and Set[str]".data).drop 22
      ∧ typeReHead (("List[int] and Set[str]".data).drop 22) = none := by
  have h := C5_greedy_rightmost ("List[int] and Set[str]".data)
    ("List[int] and Set[str]".data) 22 (by decide) (by decide)
  exact ⟨by decide, h.1, h.2.1, h.2.2 22 (Nat.le_refl _)⟩

/-! Lemmas for C1: how the parser behaves on `T ++ "[" ++ A ++ "]"`. -/

theorem skipSpaces_append_nil {a : List Char} (b : List Char)
    (h : skipSpaces a = []) : skipSpaces (a ++ b) = skipSpaces b := by
  induction a with
  | nil => rfl
  | cons c a ih =>
    by_cases hc : c = ' '
    · simp only [skipSpaces, if_pos hc] at h ⊢
      exact ih h
    · simp only [skipSpaces, if_neg hc] at h
      exact absurd h (by simp)

theorem skipSpaces_append_cons {a : List Char} (b : List Char) {c : Char}
    {l : List Char} (h : skipSpaces a = c :: l) :
    skipSpaces (a ++ b) = c :: (l ++ b) := by
  induction a with
  | nil => exact absurd h (by simp [skipSpaces])
  | cons x a ih =>
    by_cases hx : x = ' '
    · simp only [skipSpaces, if_pos hx] at h ⊢
      exact ih h
    · simp only [skipSpaces, if_neg hx] at h ⊢
      injection h with h₁ h₂
      subst h₁; subst h₂
      rfl

theorem takeWhile_append_one {p : Char → Bool} {x : Char} (hx : p x = false) :
    ∀ cs : List Char, ((cs ++ [x]).takeWhile p) = cs.takeWhile p := by
  intro cs
  induction cs with
  | nil => simp [List.takeWhile, hx]
  | cons c cs ih =>
    by_cases hc : p c
    · simp [List.takeWhile_cons, hc, ih]
    · simp [List.takeWhile_cons, hc]

theorem dropWhile_append_one {p : Char → Bool} {x : Char} (hx : p x = false) :
    ∀ cs : List Char, ((cs ++ [x]).dropWhile p) = cs.dropWhile p ++ [x] := by
  intro cs
  induction cs with
  | nil => simp [List.dropWhile, hx]
  | cons c cs ih =>
    by_cases hc : p c
    · simp [List.dropWhile_cons, hc, ih]
    · simp [List.dropWhile_cons, hc]

theorem takeWhile_append_all {p : Char → Bool} :
    ∀ {l : List Char} (r : List Char), (∀ c ∈ l, p c = true) →
      ((l ++ r).takeWhile p) = l ++ r.takeWhile p := by
  intro l
  induction l with
  | nil => intro r _; rfl
  | cons c l ih =>
    intro r hall
    have hc : p c = true := hall c (List.mem_cons_self _ _)
    have hrec := ih r fun d hd => hall d (List.mem_cons_of_mem _ hd)
    simp [List.takeWhile_cons, hc, hrec]

theorem dropWhile_append_all {p : Char → Bool} :
    ∀ {l : List Char} (r : List Char), (∀ c ∈ l, p c = true) →
      ((l ++ r).dropWhile p) = r.dropWhile p := by
  intro l
  induction l with
  | nil => intro r _; rfl
  | cons c l ih =>
    intro r hall
    have hc : p c = true := hall c (List.mem_cons_self _ _)
    have hrec := ih r fun d hd => hall d (List.mem_cons_of_mem _ hd)
    simp [List.dropWhile_cons, hc, hrec]

theorem parseIdent_append {cs : List Char} {i : String} {r : List Char}
    (h : parseIdent cs = some (i, r)) :
    parseIdent (cs ++ [']']) = some (i, r ++ [']']) := by
  cases cs with
  | nil => exact absurd h (by simp [parseIdent])
  | cons c cs' =>
    simp only [parseIdent] at h
    by_cases hc : isIdentStart c
    · rw [if_pos hc] at h
      simp only [Option.some.injEq, Prod.mk.injEq] at h
      have e₁ := @takeWhile_append_one isIdentChar ']' (by decide) (c :: cs')
      have e₂ := @dropWhile_append_one isIdentChar ']' (by decide) (c :: cs')
      show parseIdent (c :: (cs' ++ [']'])) = _
      simp only [parseIdent, if_pos hc]
      rw [← List.cons_append, e₁, e₂, h.1, h.2]
    · rw [if_neg hc] at h
      exact absurd h (by simp)

theorem startsEll_length {cs : List Char} (h : startsEll cs = true) :
    3 ≤ cs.length := by
  unfold startsEll at h
  have hl := congrArg List.length (by simpa using h)
  simp [List.length_take] at hl
  omega

theorem parsePrimary_append {cs : List Char} {e : PyAst} {r : List Char}
    (h : parsePrimary cs = some (e, r)) :
    parsePrimary (cs ++ [']']) = some (e, r ++ [']']) := by
  by_cases hE : startsEll cs
  · have h3 := startsEll_length hE
    have hE' : startsEll (cs ++ [']']) = true := by
      unfold startsEll at hE ⊢
      rw [List.take_append_of_le_length h3]
      exact hE
    simp only [parsePrimary, hE, if_true, Option.some.injEq, Prod.mk.injEq] at h
    simp only [parsePrimary, hE', if_true, Option.some.injEq, Prod.mk.injEq]
    rw [List.drop_append_of_le_length h3, h.1, h.2]
    exact ⟨rfl, rfl⟩
  · cases hi : parseIdent cs with
    | none => simp [parsePrimary, hE, hi] at h
    | some p =>
      obtain ⟨i, r₀⟩ := p
      have hcs : ∃ c cs', cs = c :: cs' ∧ isIdentStart c = true := by
        cases cs with
        | nil => simp [parseIdent] at hi
        | cons c cs' =>
          refine ⟨c, cs', rfl, ?_⟩
          by_contra hc
          simp [parseIdent, hc] at hi
      obtain ⟨c, cs', rfl, hcid⟩ := hcs
      have hE' : startsEll ((c :: cs') ++ [']']) = false := by
        by_contra hcon
        simp only [Bool.not_eq_false] at hcon
        have h' : ((c :: cs') ++ [']']).take 3 = ['.', '.', '.'] := by
          simpa [startsEll] using hcon
        have h'' := congrArg List.head? h'
        simp [List.take_succ_cons] at h''
        subst h''
        exact absurd hcid (by decide)
      simp only [parsePrimary, hE, Bool.false_eq_true, if_false, hi,
        Option.some.injEq, Prod.mk.injEq] at h
      simp only [parsePrimary, hE', Bool.false_eq_true, if_false,
        parseIdent_append hi]
      rw [h.1, h.2]

/-! One-step evaluation equations for the fueled parsers, conditioned on the
shape of the space-skipped input so that the resulting right-hand sides are
plain `if`/`match` terms on exposed scrutinees. -/

theorem parseExpr_nil {f : Nat} {cs : List Char} (hsk : skipSpaces cs = []) :
    parseExpr (f + 1) cs = none := by
  simp only [parseExpr, hsk]

theorem parseExpr_cons {f : Nat} {cs : List Char} {c : Char} {cs' : List Char}
    (hsk : skipSpaces cs = c :: cs') :
    parseExpr (f + 1) cs =
      if c = '~' then
        match parseExpr f cs' with
        | some (e, r) => some (.Invert e, r)
        | none => none
      else
        match parsePrimary (c :: cs') with
        | some (e, r) => parseSuffix f e r
        | none => none := by
  simp only [parseExpr, hsk]

theorem parseSuffix_nil {f : Nat} {e : PyAst} {cs : List Char}
    (hsk : skipSpaces cs = []) : parseSuffix (f + 1) e cs = some (e, []) := by
  simp only [parseSuffix, hsk]

theorem parseSuffix_cons {f : Nat} {e : PyAst} {cs : List Char} {c : Char}
    {cs' : List Char} (hsk : skipSpaces cs = c :: cs') :
    parseSuffix (f + 1) e cs =
      if c = '.' then
        match parseIdent (skipSpaces cs') with
        | some (a, r) => parseSuffix f (.Attribute e a) r
        | none => none
      else if c = '[' then
        match parseList f cs' with
        | some (arg, r) =>
          match skipSpaces r with
          | c' :: r' =>
            if c' = ']' then parseSuffix f (.Subscript e (.Index arg)) r' else none
          | [] => none
        | none => none
      else some (e, c :: cs') := by
  simp only [parseSuffix, hsk]

theorem parseList_eval (f : Nat) (cs : List Char) :
    parseList (f + 1) cs =
      match parseExpr f cs with
      | some (e, r) => parseListRest f [e] r
      | none => none := by
  simp only [parseList]

theorem parseListRest_nil {f : Nat} {acc : List PyAst} {cs : List Char}
    (hsk : skipSpaces cs = []) :
    parseListRest (f + 1) acc cs =
      match acc with
      | [e] => some (e, [])
      | _ => some (.Tuple acc, []) := by
  simp only [parseListRest, hsk]

theorem parseListRest_cons {f : Nat} {acc : List PyAst} {cs : List Char}
    {c : Char} {cs' : List Char} (hsk : skipSpaces cs = c :: cs') :
    parseListRest (f + 1) acc cs =
      if c = ',' then
        match parseExpr f cs' with
        | some (e, r) => parseListRest f (acc ++ [e]) r
        | none => none
      else
        match acc with
        | [e] => some (e, c :: cs')
        | _ => some (.Tuple acc, c :: cs') := by
  simp only [parseListRest, hsk]

/-- More fuel never changes a successful parse. -/
theorem parseStepMono : ∀ f : Nat,
    (∀ cs r, parseExpr f cs = some r → parseExpr (f + 1) cs = some r)
  ∧ (∀ e cs r, parseSuffix f e cs = some r → parseSuffix (f + 1) e cs = some r)
  ∧ (∀ cs r, parseList f cs = some r → parseList (f + 1) cs = some r)
  ∧ (∀ acc cs r, parseListRest f acc cs = some r → parseListRest (f + 1) acc cs = some r) := by
  intro f
  induction f with
  | zero =>
    refine ⟨?_, ?_, ?_, ?_⟩
    · intro cs r h; exact absurd h (by simp [parseExpr])
    · intro e cs r h; exact absurd h (by simp [parseSuffix])
    · intro cs r h; exact absurd h (by simp [parseList])
    · intro acc cs r h; exact absurd h (by simp [parseListRest])
  | succ f ih =>
    obtain ⟨ihE, ihS, ihL, ihR⟩ := ih
    refine ⟨?_, ?_, ?_, ?_⟩
    · intro cs r h
      cases hsk : skipSpaces cs with
      | nil => rw [parseExpr_nil hsk] at h; exact absurd h (by simp)
      | cons c cs' =>
        rw [parseExpr_cons hsk] at h
        rw [parseExpr_cons hsk]
        by_cases hc : c = '~'
        · rw [if_pos hc] at h ⊢
          cases hin : parseExpr f cs' with
          | none => rw [hin] at h; exact absurd h (by simp)
          | some q =>
            rw [hin] at h
            rw [ihE cs' q hin]
            exact h
        · rw [if_neg hc] at h ⊢
          cases hp : parsePrimary (c :: cs') with
          | none => rw [hp] at h; exact absurd h (by simp)
          | some q =>
            obtain ⟨e₀, r₀⟩ := q
            rw [hp] at h
            have h' : parseSuffix f e₀ r₀ = some r := h
            exact ihS e₀ r₀ r h'
    · intro e cs r h
      cases hsk : skipSpaces cs with
      | nil => rw [parseSuffix_nil hsk] at h; rw [parseSuffix_nil hsk]; exact h
      | cons c cs' =>
        rw [parseSuffix_cons hsk] at h
        rw [parseSuffix_cons hsk]
        by_cases hc : c = '.'
        · rw [if_pos hc] at h ⊢
          cases hi : parseIdent (skipSpaces cs') with
          | none => rw [hi] at h; exact absurd h (by simp)
          | some q =>
            obtain ⟨a, r₁⟩ := q
            rw [hi] at h
            have h' : parseSuffix f (.Attribute e a) r₁ = some r := h
            exact ihS _ r₁ r h'
        · rw [if_neg hc] at h ⊢
          by_cases hb : c = '['
          · rw [if_pos hb] at h ⊢
            cases hl : parseList f cs' with
            | none => rw [hl] at h; exact absurd h (by simp)
            | some q =>
              obtain ⟨arg, r₁⟩ := q
              rw [hl] at h
              rw [ihL cs' (arg, r₁) hl]
              have h' : (match skipSpaces r₁ with
                  | c' :: r' =>
                    if c' = ']' then parseSuffix f (.Subscript e (.Index arg)) r' else none
                  | [] => none) = some r := h
              cases hsk₂ : skipSpaces r₁ with
              | nil => rw [hsk₂] at h'; exact absurd h' (by simp)
              | cons c' r' =>
                rw [hsk₂] at h'
                by_cases hq : c' = ']'
                · subst hq
                  have h'' : parseSuffix f (.Subscript e (.Index arg)) r' = some r := by
                    simpa using h'
                  have hrec := ihS (.Subscript e (.Index arg)) r' r h''
                  show (match skipSpaces r₁ with
                    | c' :: r' =>
                      if c' = ']' then parseSuffix (f + 1) (.Subscript e (.Index arg)) r'
                      else none
                    | [] => none) = some r
                  rw [hsk₂]
                  simpa using hrec
                · exact absurd h' (by simp [hq])
          · rw [if_neg hb] at h ⊢
            exact h
    · intro cs r h
      rw [parseList_eval] at h
      rw [parseList_eval]
      cases hpe : parseExpr f cs with
      | none => rw [hpe] at h; exact absurd h (by simp)
      | some q =>
        obtain ⟨e₀, r₀⟩ := q
        rw [hpe] at h
        rw [ihE cs (e₀, r₀) hpe]
        have h' : parseListRest f [e₀] r₀ = some r := h
        exact ihR [e₀] r₀ r h'
    · intro acc cs r h
      cases hsk : skipSpaces cs with
      | nil => rw [parseListRest_nil hsk] at h; rw [parseListRest_nil hsk]; exact h
      | cons c cs' =>
        rw [parseListRest_cons hsk] at h
        rw [parseListRest_cons hsk]
        by_cases hc : c = ','
        · rw [if_pos hc] at h ⊢
          cases hpe : parseExpr f cs' with
          | none => rw [hpe] at h; exact absurd h (by simp)
          | some q =>
            obtain ⟨e₀, r₀⟩ := q
            rw [hpe] at h
            rw [ihE cs' (e₀, r₀) hpe]
            have h' : parseListRest f (acc ++ [e₀]) r₀ = some r := h
            exact ihR (acc ++ [e₀]) r₀ r h'
        · rw [if_neg hc] at h ⊢
          exact h

/-- Appending a closing bracket after the parsed input does not disturb a
successful parse: every stopping decision of the grammar treats a following
`]` exactly like the end of the input, so the bracket simply remains in the
unconsumed remainder.  This is what lets a slice parse be embedded in a
surrounding `name[...]`. -/
theorem parseAppendClose : ∀ f : Nat,
    (∀ cs e r, parseExpr f cs = some (e, r) →
      parseExpr f (cs ++ [']']) = some (e, r ++ [']']))
  ∧ (∀ e₀ cs e r, parseSuffix f e₀ cs = some (e, r) →
      parseSuffix f e₀ (cs ++ [']']) = some (e, r ++ [']']))
  ∧ (∀ cs e r, parseList f cs = some (e, r) →
      parseList f (cs ++ [']']) = some (e, r ++ [']']))
  ∧ (∀ acc cs e r, parseListRest f acc cs = some (e, r) →
      parseListRest f acc (cs ++ [']']) = some (e, r ++ [']'])) := by
  intro f
  induction f with
  | zero =>
    refine ⟨?_, ?_, ?_, ?_⟩
    · intro cs e r h; exact absurd h (by simp [parseExpr])
    · intro e₀ cs e r h; exact absurd h (by simp [parseSuffix])
    · intro cs e r h; exact absurd h (by simp [parseList])
    · intro acc cs e r h; exact absurd h (by simp [parseListRest])
  | succ f ih =>
    obtain ⟨ihE, ihS, ihL, ihR⟩ := ih
    refine ⟨?_, ?_, ?_, ?_⟩
    · intro cs e r h
      cases hsk : skipSpaces cs with
      | nil => rw [parseExpr_nil hsk] at h; exact absurd h (by simp)
      | cons c cs' =>
        have hsk' : skipSpaces (cs ++ [']']) = c :: (cs' ++ [']']) :=
          skipSpaces_append_cons [']'] hsk
        rw [parseExpr_cons hsk] at h
        rw [parseExpr_cons hsk']
        by_cases hc : c = '~'
        · rw [if_pos hc] at h ⊢
          cases hin : parseExpr f cs' with
          | none => rw [hin] at h; exact absurd h (by simp)
          | some q =>
            obtain ⟨e₁, r₁⟩ := q
            rw [hin] at h
            rw [ihE cs' e₁ r₁ hin]
            simp only [Option.some.injEq, Prod.mk.injEq] at h
            obtain ⟨h₁, h₂⟩ := h
            subst h₁; subst h₂
            rfl
        · rw [if_neg hc] at h ⊢
          cases hp : parsePrimary (c :: cs') with
          | none => rw [hp] at h; exact absurd h (by simp)
          | some q =>
            obtain ⟨e₁, r₁⟩ := q
            rw [hp] at h
            have h' : parseSuffix f e₁ r₁ = some (e, r) := h
            have hpa := parsePrimary_append hp
            rw [List.cons_append] at hpa
            rw [hpa]
            exact ihS e₁ r₁ e r h'
    · intro e₀ cs e r h
      cases hsk : skipSpaces cs with
      | nil =>
        rw [parseSuffix_nil hsk] at h
        simp only [Option.some.injEq, Prod.mk.injEq] at h
        obtain ⟨h₁, h₂⟩ := h
        subst h₁; subst h₂
        have hsk' : skipSpaces (cs ++ [']']) = ']' :: [] := by
          rw [skipSpaces_append_nil [']'] hsk]
          rfl
        rw [parseSuffix_cons hsk']
        rfl
      | cons c cs' =>
        have hsk' : skipSpaces (cs ++ [']']) = c :: (cs' ++ [']']) :=
          skipSpaces_append_cons [']'] hsk
        rw [parseSuffix_cons hsk] at h
        rw [parseSuffix_cons hsk']
        by_cases hc : c = '.'
        · rw [if_pos hc] at h ⊢
          cases hi : parseIdent (skipSpaces cs') with
          | none => rw [hi] at h; exact absurd h (by simp)
          | some q =>
            obtain ⟨a, r₁⟩ := q
            rw [hi] at h
            have h' : parseSuffix f (.Attribute e₀ a) r₁ = some (e, r) := h
            cases hsk₂ : skipSpaces cs' with
            | nil => rw [hsk₂] at hi; exact absurd hi (by simp [parseIdent])
            | cons d ds =>
              rw [hsk₂] at hi
              have hsk₂' : skipSpaces (cs' ++ [']']) = d :: (ds ++ [']']) :=
                skipSpaces_append_cons [']'] hsk₂
              have hia := parseIdent_append hi
              rw [List.cons_append] at hia
              rw [hsk₂', hia]
              exact ihS (.Attribute e₀ a) r₁ e r h'
        · rw [if_neg hc] at h ⊢
          by_cases hb : c = '['
          · rw [if_pos hb] at h ⊢
            cases hl : parseList f cs' with
            | none => rw [hl] at h; exact absurd h (by simp)
            | some q =>
              obtain ⟨arg, r₁⟩ := q
              rw [hl] at h
              have h' : (match skipSpaces r₁ with
                  | c' :: r' =>
                    if c' = ']' then parseSuffix f (.Subscript e₀ (.Index arg)) r' else none
                  | [] => none) = some (e, r) := h
              rw [ihL cs' arg r₁ hl]
              cases hsk₂ : skipSpaces r₁ with
              | nil => rw [hsk₂] at h'; exact absurd h' (by simp)
              | cons c' r' =>
                rw [hsk₂] at h'
                by_cases hq : c' = ']'
                · subst hq
                  have h'' : parseSuffix f (.Subscript e₀ (.Index arg)) r' = some (e, r) := by
                    simpa using h'
                  have hsk₂' : skipSpaces (r₁ ++ [']']) = ']' :: (r' ++ [']']) :=
                    skipSpaces_append_cons [']'] hsk₂
                  have hrec := ihS (.Subscript e₀ (.Index arg)) r' e r h''
                  show (match skipSpaces (r₁ ++ [']']) with
                    | c' :: r'' =>
                      if c' = ']' then parseSuffix f (.Subscript e₀ (.Index arg)) r''
                      else none
                    | [] => none) = some (e, r ++ [']'])
                  rw [hsk₂']
                  simpa using hrec
                · exact absurd h' (by simp [hq])
          · rw [if_neg hb] at h ⊢
            simp only [Option.some.injEq, Prod.mk.injEq] at h
            obtain ⟨h₁, h₂⟩ := h
            subst h₁; subst h₂
            rfl
    · intro cs e r h
      rw [parseList_eval] at h
      rw [parseList_eval]
      cases hpe : parseExpr f cs with
      | none => rw [hpe] at h; exact absurd h (by simp)
      | some q =>
        obtain ⟨e₁, r₁⟩ := q
        rw [hpe] at h
        have h' : parseListRest f [e₁] r₁ = some (e, r) := h
        rw [ihE cs e₁ r₁ hpe]
        exact ihR [e₁] r₁ e r h'
    · intro acc cs e r h
      cases hsk : skipSpaces cs with
      | nil =>
        rw [parseListRest_nil hsk] at h
        have hsk' : skipSpaces (cs ++ [']']) = ']' :: [] := by
          rw [skipSpaces_append_nil [']'] hsk]
          rfl
        rw [parseListRest_cons hsk']
        rcases acc with _ | ⟨e₁, _ | ⟨e₂, accr⟩⟩
        · have h' : some (PyAst.Tuple [], ([] : List Char)) = some (e, r) := h
          simp only [Option.some.injEq, Prod.mk.injEq] at h'
          obtain ⟨h₁, h₂⟩ := h'
          subst h₁; subst h₂
          rfl
        · have h' : some (e₁, ([] : List Char)) = some (e, r) := h
          simp only [Option.some.injEq, Prod.mk.injEq] at h'
          obtain ⟨h₁, h₂⟩ := h'
          subst h₁; subst h₂
          rfl
        · have h' : some (PyAst.Tuple (e₁ :: e₂ :: accr), ([] : List Char)) = some (e, r) := h
          simp only [Option.some.injEq, Prod.mk.injEq] at h'
          obtain ⟨h₁, h₂⟩ := h'
          subst h₁; subst h₂
          rfl
      | cons c cs' =>
        have hsk' : skipSpaces (cs ++ [']']) = c :: (cs' ++ [']']) :=
          skipSpaces_append_cons [']'] hsk
        rw [parseListRest_cons hsk] at h
        rw [parseListRest_cons hsk']
        by_cases hc : c = ','
        · rw [if_pos hc] at h ⊢
          cases hpe : parseExpr f cs' with
          | none => rw [hpe] at h; exact absurd h (by simp)
          | some q =>
            obtain ⟨e₁, r₁⟩ := q
            rw [hpe] at h
            rw [ihE cs' e₁ r₁ hpe]
            have h' : parseListRest f (acc ++ [e₁]) r₁ = some (e, r) := h
            exact ihR (acc ++ [e₁]) r₁ e r h'
        · rw [if_neg hc] at h ⊢
          rcases acc with _ | ⟨e₁, _ | ⟨e₂, accr⟩⟩
          · have h' : some (PyAst.Tuple [], c :: cs') = some (e, r) := h
            simp only [Option.some.injEq, Prod.mk.injEq] at h'
            obtain ⟨h₁, h₂⟩ := h'
            subst h₁; subst h₂
            rfl
          · have h' : some (e₁, c :: cs') = some (e, r) := h
            simp only [Option.some.injEq, Prod.mk.injEq] at h'
            obtain ⟨h₁, h₂⟩ := h'
            subst h₁; subst h₂
            rfl
          · have h' : some (PyAst.Tuple (e₁ :: e₂ :: accr), c :: cs') = some (e, r) := h
            simp only [Option.some.injEq, Prod.mk.injEq] at h'
            obtain ⟨h₁, h₂⟩ := h'
            subst h₁; subst h₂
            rfl

/-- `parseList` is monotone in the fuel. -/
theorem parseList_mono {f g : Nat} (hfg : f ≤ g) {cs : List Char}
    {r : PyAst × List Char} (h : parseList f cs = some r) :
    parseList g cs = some r := by
  induction g with
  | zero =>
    have : f = 0 := Nat.le_zero.mp hfg
    subst this
    exact h
  | succ g ih =>
    rcases Nat.lt_or_ge f (g + 1) with hlt | hge
    · exact (parseStepMono g).2.2.1 cs r (ih (Nat.lt_succ_iff.mp hlt))
    · have : f = g + 1 := Nat.le_antisymm hfg hge
      subst this
      exact h

/-- Every recognized name is a nonempty identifier: all characters are
identifier characters and the head is an identifier-start character. -/
theorem TYPES_ident : ∀ t ∈ TYPES, t.data ≠ []
    ∧ (∀ c ∈ t.data, isIdentChar c = true)
    ∧ isIdentStart (t.data.headD ' ') = true := by decide

theorem identStart_props {c : Char} (h : isIdentStart c = true) :
    c ≠ ' ' ∧ c ≠ '~' ∧ c ≠ '.' := by
  refine ⟨?_, ?_, ?_⟩ <;> (rintro rfl; exact absurd h (by decide))

/-- The key composition: parsing `T[A]` for a recognized name `T` and a
completely-parsing slice text `A` yields the subscript of `Name T` by the
`Index` of `A`'s parse, with nothing left over. -/
theorem parseList_subscript (T : String) (hT : T ∈ TYPES) (A : List Char)
    (a : PyAst) (f : Nat) (hA : parseList f A = some (a, [])) :
    parseList (f + 3) (T.data ++ '[' :: (A ++ [']']))
      = some (.Subscript (.Name T) (.Index a), []) := by
  obtain ⟨hne, hall, hstart⟩ := TYPES_ident T hT
  obtain ⟨d, ds, hds⟩ : ∃ d ds, T.data = d :: ds := by
    cases hT2 : T.data with
    | nil => exact absurd hT2 hne
    | cons d ds => exact ⟨d, ds, rfl⟩
  have hd : isIdentStart d = true := by
    rw [hds] at hstart
    simpa using hstart
  obtain ⟨hdsp, hdtl, hddot⟩ := identStart_props hd
  cases f with
  | zero => exact absurd hA (by simp [parseList])
  | succ f' =>
  have hWcons : T.data ++ '[' :: (A ++ [']']) = d :: (ds ++ '[' :: (A ++ [']'])) := by
    rw [hds]
    rfl
  have hskW : skipSpaces (T.data ++ '[' :: (A ++ [']']))
      = d :: (ds ++ '[' :: (A ++ [']'])) := by
    rw [hWcons]
    simp [skipSpaces, hdsp]
  -- `parsePrimary` reads exactly the identifier `T`
  have hprim : parsePrimary (d :: (ds ++ '[' :: (A ++ [']'])))
      = some (.Name T, '[' :: (A ++ [']'])) := by
    have hEll : startsEll (d :: (ds ++ '[' :: (A ++ [']']))) = false := by
      by_contra hcon
      simp only [Bool.not_eq_false] at hcon
      have h' : (d :: (ds ++ '[' :: (A ++ [']']))).take 3 = ['.', '.', '.'] := by
        simpa [startsEll] using hcon
      have h'' := congrArg List.head? h'
      simp [List.take_succ_cons] at h''
      exact hddot h''
    have hallT : ∀ c ∈ (d :: ds), isIdentChar c = true := by
      rw [← hds]
      exact hall
    have htw : (d :: (ds ++ '[' :: (A ++ [']']))).takeWhile isIdentChar = d :: ds := by
      rw [← List.cons_append, takeWhile_append_all _ hallT]
      simp [List.takeWhile_cons, show isIdentChar '[' = false from by decide]
    have hdw : (d :: (ds ++ '[' :: (A ++ [']']))).dropWhile isIdentChar
        = '[' :: (A ++ [']']) := by
      rw [← List.cons_append, dropWhile_append_all _ hallT]
      simp [List.dropWhile_cons, show isIdentChar '[' = false from by decide]
    have hid : parseIdent (d :: (ds ++ '[' :: (A ++ [']'])))
        = some (T, '[' :: (A ++ [']'])) := by
      simp only [parseIdent, hd, if_true, htw, hdw]
      rw [← hds, mk_data]
    simp only [parsePrimary, hEll, Bool.false_eq_true, if_false, hid]
  -- the inner suffix parse of `[A]`
  have hsuff : parseSuffix (f' + 2) (.Name T) ('[' :: (A ++ [']']))
      = some (.Subscript (.Name T) (.Index a), []) := by
    have hsk1 : skipSpaces ('[' :: (A ++ [']'])) = '[' :: (A ++ [']']) := by
      simp [skipSpaces]
    rw [parseSuffix_cons hsk1]
    rw [if_neg (by decide : ¬ ('[' : Char) = '.')]
    rw [if_pos rfl]
    have happ : parseList (f' + 1) (A ++ [']']) = some (a, [] ++ [']']) :=
      (parseAppendClose (f' + 1)).2.2.1 A a [] hA
    rw [List.nil_append] at happ
    rw [happ]
    show (match skipSpaces [']'] with
      | c' :: r' =>
        if c' = ']' then parseSuffix (f' + 1) (.Subscript (.Name T) (.Index a)) r'
        else none
      | [] => none) = some (.Subscript (.Name T) (.Index a), [])
    rw [show skipSpaces ([']'] : List Char) = [']'] from by rfl]
    show (if (']' : Char) = ']'
      then parseSuffix (f' + 1) (.Subscript (.Name T) (.Index a)) []
      else none) = some (.Subscript (.Name T) (.Index a), [])
    rw [if_pos rfl]
    rw [parseSuffix_nil (show skipSpaces ([] : List Char) = [] from rfl)]
  -- assemble
  have h3 : f' + 1 + 3 = (f' + 3) + 1 := rfl
  rw [h3, parseList_eval]
  rw [show f' + 3 = (f' + 2) + 1 from rfl, parseExpr_cons hskW]
  rw [if_neg hdtl, hprim]
  show (match parseSuffix (f' + 2) (.Name T) ('[' :: (A ++ [']'])) with
    | some (e, r) => parseListRest ((f' + 2) + 1) [e] r
    | none => none) = some (.Subscript (.Name T) (.Index a), [])
  rw [hsuff]
  show parseListRest ((f' + 2) + 1) [.Subscript (.Name T) (.Index a)] []
    = some (.Subscript (.Name T) (.Index a), [])
  rw [parseListRest_nil (show skipSpaces ([] : List Char) = [] from rfl)]

/-- C1: for every recognized argument-taking name `T` and every argument
text `A` that the annotation pipeline itself accepts (with rendering `rA`),
`transform "T[A]"` is the `~typing`-prefixed reference for `T` followed by
`" [ "`, the rendering of `A`, and `" ] "` — including the trailing space
after the closing bracket. -/
theorem C1_subscript_markup (T A rA : String) (hT : T ∈ TYPES)
    (hA : transform A = some rA) :
    transform (T ++ "[" ++ A ++ "]")
      = some (":py:obj:`~typing." ++ T ++ "` [ " ++ rA ++ " ] ") := by
  unfold transform at hA
  cases hp : parseAnnL A.data with
  | none => rw [hp] at hA; exact absurd hA (by simp)
  | some a₀ =>
    rw [hp] at hA
    have hA₂ : (match collapseAttrs a₀ with
        | none => none
        | some tree' => redoc tree') = some rA := hA
    cases hc : collapseAttrs a₀ with
    | none => rw [hc] at hA₂; exact absurd hA₂ (by simp)
    | some c₀ =>
      have hA' : redoc c₀ = some rA := by rw [hc] at hA₂; exact hA₂
      have hpl : parseList (parseFuel A.data) A.data = some (a₀, []) := by
        unfold parseAnnL at hp
        cases hq : parseList (parseFuel A.data) A.data with
        | none => rw [hq] at hp; exact absurd hp (by simp)
        | some q =>
          obtain ⟨a₁, r₁⟩ := q
          rw [hq] at hp
          by_cases hr : r₁ = ([] : List Char)
          · subst hr
            have hp' : a₁ = a₀ := by simpa using hp
            subst hp'
            rfl
          · have hp' : (none : Option PyAst) = some a₀ := by
              have h2 : (if r₁ = ([] : List Char) then some a₁ else none) = some a₀ := hp
              rwa [if_neg hr] at h2
            exact absurd hp' (by simp)
      have hdata : (T ++ "[" ++ A ++ "]").data = T.data ++ '[' :: (A.data ++ [']']) := by
        simp [String.data_append]
      have hcomp := parseList_subscript T hT A.data a₀ (parseFuel A.data) hpl
      have hmono : parseList (parseFuel ((T ++ "[" ++ A ++ "]").data))
          ((T ++ "[" ++ A ++ "]").data)
          = some (.Subscript (.Name T) (.Index a₀), []) := by
        rw [hdata]
        refine parseList_mono ?_ hcomp
        unfold parseFuel
        simp [List.length_append]
        omega
      have hpback : parseAnnL ((T ++ "[" ++ A ++ "]").data)
          = some (.Subscript (.Name T) (.Index a₀)) := by
        unfold parseAnnL
        rw [hmono]
        rfl
      have hcol : collapseAttrs (.Subscript (.Name T) (.Index a₀))
          = some (.Subscript (.Name T) (.Index c₀)) := by
        simp [collapseAttrs, hc]
      have hred : redoc (.Subscript (.Name T) (.Index c₀))
          = some (renderName T ++ (" [ " ++ rA ++ " ] ")) := by
        simp [redoc, hA']
      unfold transform
      rw [hpback]
      show (match collapseAttrs (.Subscript (.Name T) (.Index a₀)) with
        | none => none
        | some tree' => redoc tree')
        = some (":py:obj:`~typing." ++ T ++ "` [ " ++ rA ++ " ] ")
      rw [hcol]
      show redoc (.Subscript (.Name T) (.Index c₀))
        = some (":py:obj:`~typing." ++ T ++ "` [ " ++ rA ++ " ] ")
      rw [hred]
      congr 1
      rw [renderName_hasattr (vocab_hasattr (Or.inl hT))]
      apply str_ext
      simp [String.data_append, List.append_assoc]

/-- Witness for C1 at `T = Sequence`, `A = int`. -/
theorem C1_subscript_markup_witness :
    ("Sequence" ∈ TYPES ∧ transform "int" = some ":py:obj:`int`")
      ∧ transform ("Sequence" ++ "[" ++ "int" ++ "]")
          = some (":py:obj:`~typing." ++ "Sequence" ++ "` [ " ++ ":py:obj:`int`" ++ " ] ") :=
  ⟨⟨by decide, by decide⟩,
   C1_subscript_markup "Sequence" "int" ":py:obj:`int`" (by decide) (by decide)⟩

end SDT
